import Mathlib

/-!
Shallow embedding of the result-caching and request-lifecycle controller of the
video-to-sticker converter, together with its validation and error-classification
helpers.

Source files embedded here:
* the caching `useVideoProcessor` hook (module-level `processedCache`,
  `MAX_CACHE_SIZE`, `MAX_CACHE_AGE`, `defaultGetCacheKey`, `addToCache`,
  `cleanCache`, `processVideoFile`, `cancelProcessing`, `reset`);
* `createProcessingError` from `src/lib/error-handler.ts`;
* `validateFileType` / `validateFileSize` / `validateVideoDuration` /
  `validateVideoFile` from the validators module in `src/lib/download-helper.ts`,
  which reads `STICKER_REQUIREMENTS` from `src/lib/utils.ts` (scalar
  `MAX_FILE_SIZE_MB: 50`).

JavaScript `Map` is modelled as an insertion-ordered association list
(`Map.set` on an existing key updates in place, otherwise appends; `Map.delete`
removes the entry; iteration follows insertion order).  Blob URLs are modelled
as strings; the JS truthiness checks (`if (entry.url)`, `if (oldestKey)`) are
kept as `≠ ""` tests.  `Date.now()` values are passed in explicitly as `Nat`
timestamps.
-/

namespace Sticker

/-- Input file metadata as carried by a browser `File`: `name`, `size`,
`lastModified`, MIME `type`, plus the decoded-metadata duration probe result
(`none` models a probe failure). Durations are rational seconds. -/
structure SourceFile where
  name : String
  size : Nat
  lastModified : Nat
  mime : String
  duration : Option ℚ
deriving Repr, DecidableEq

/-- The triple `{ blob, url, filename }` produced by a conversion.  Blobs are
modelled by an identifier, urls by the string `createObjectURL` returned. -/
structure ResultR where
  blob : Nat
  url : String
  filename : String
deriving Repr, DecidableEq

/-- One entry of the module-level `processedCache`:
`{ blob, url, filename, timestamp }`. -/
structure CacheEntry where
  blob : Nat
  url : String
  filename : String
  timestamp : Nat
deriving Repr, DecidableEq

/-- Model of `processedCache : Map<string, CacheEntry>`, as an insertion-ordered
association list. -/
abbrev Cache := List (String × CacheEntry)

/-- Maximum cache size (in number of entries). -/
def MAX_CACHE_SIZE : Nat := 5

/-- Maximum cache age (in milliseconds) - 30 minutes. -/
def MAX_CACHE_AGE : Nat := 30 * 60 * 1000

/-- Model of `Map.get`. -/
def mapGet (c : Cache) (k : String) : Option CacheEntry :=
  match c with
  | [] => none
  | (k', e) :: rest => if k' = k then some e else mapGet rest k

/-- Model of `Map.set`: updates in place when the key is present (keeping its position),
otherwise appends at the end. -/
def mapSet (c : Cache) (k : String) (e : CacheEntry) : Cache :=
  match c with
  | [] => [(k, e)]
  | (k', e') :: rest =>
      if k' = k then (k', e) :: rest else (k', e') :: mapSet rest k e

/-- Model of `Map.delete`. -/
def mapDelete (c : Cache) (k : String) : Cache :=
  match c with
  | [] => []
  | (k', e') :: rest =>
      if k' = k then rest else (k', e') :: mapDelete rest k

/-- The in-place `cachedResult.timestamp = Date.now()` mutation performed on a
cache hit: refreshes the entry's timestamp, keeping its position. -/
def mapRefresh (c : Cache) (k : String) (now : Nat) : Cache :=
  match c with
  | [] => []
  | (k', e) :: rest =>
      if k' = k then (k', { e with timestamp := now }) :: rest
      else (k', e) :: mapRefresh rest k now

/-- The `forEach` scan of `addToCache` looking for the entry with the oldest
timestamp: `oldestTime` starts at `Infinity` (modelled by `none`) and is
replaced whenever `value.timestamp < oldestTime`. -/
def oldestAcc (c : Cache) (best : Option (String × Nat)) : Option (String × Nat) :=
  match c with
  | [] => best
  | (k, e) :: rest =>
      let best' :=
        match best with
        | none => some (k, e.timestamp)
        | some (bk, bt) =>
            if e.timestamp < bt then some (k, e.timestamp) else some (bk, bt)
      oldestAcc rest best'

/-- The `oldestKey` computed by the eviction scan in `addToCache`. -/
def oldestKey (c : Cache) : Option String :=
  (oldestAcc c none).map Prod.fst

/-- Observable side effects on the shared cache and on blob URLs, in the order
the code performs them. -/
inductive CacheEvent
  | revoke (url : String)
  | remove (key : String)
  | insert (key : String)
deriving Repr, DecidableEq

/-- Model of `addToCache(key, result)`: skips when caching is disabled; when the cache
is at capacity it scans for the oldest entry, revokes that entry's url (if
truthy) and deletes it; finally inserts the new entry stamped with `Date.now()`.
Returns the new cache and the ordered effect trace. -/
def addToCache (enableCache : Bool) (now : Nat) (c : Cache) (k : String)
    (r : ResultR) : Cache × List CacheEvent :=
  if enableCache = false then (c, [])
  else
    let entry : CacheEntry := ⟨r.blob, r.url, r.filename, now⟩
    let step :=
      if MAX_CACHE_SIZE ≤ c.length then
        match oldestKey c with
        | some ok =>
            if ok = "" then (c, [])
            else
              let revokeEvs :=
                match mapGet c ok with
                | some oe =>
                    if oe.url = "" then [] else [CacheEvent.revoke oe.url]
                | none => []
              (mapDelete c ok, revokeEvs ++ [CacheEvent.remove ok])
        | none => (c, [])
      else (c, [])
    (mapSet step.1 k entry, step.2 ++ [CacheEvent.insert k])

/-- Model of `cleanCache()` at time `now`: first collects the keys of all entries with
`now - value.timestamp > MAX_CACHE_AGE` (insertion order), then for each such
key revokes the entry's url (if truthy) and deletes it. -/
def cleanCache (now : Nat) (c : Cache) : Cache × List CacheEvent :=
  let oldEntries :=
    (c.filter (fun p => MAX_CACHE_AGE < now - p.2.timestamp)).map Prod.fst
  oldEntries.foldl
    (fun acc k =>
      let evs :=
        match mapGet acc.1 k with
        | some e => if e.url = "" then [] else [CacheEvent.revoke e.url]
        | none => []
      (mapDelete acc.1 k, acc.2 ++ evs ++ [CacheEvent.remove k]))
    (c, [])

/-- The periodic cache-maintenance schedule: `cleanCache` runs once on mount
and then on a fixed interval of `MAX_CACHE_AGE / 2`; `runScans` folds the runs
over the given scan times. -/
def runScans (c : Cache) (times : List Nat) : Cache × List CacheEvent :=
  times.foldl
    (fun acc t =>
      let r := cleanCache t acc.1
      (r.1, acc.2 ++ r.2))
    (c, [])

/-- Model of `defaultGetCacheKey(file)`: derived from name, size and lastModified. -/
def defaultGetCacheKey (f : SourceFile) : String :=
  f.name ++ "-" ++ toString f.size ++ "-" ++ toString f.lastModified

/-- Computes `originalFilename.split(".")[0]`: the segment of the name before
its first dot (the whole name when it has no dot). -/
def beforeFirstDot (s : String) : String :=
  ⟨s.data.takeWhile (fun ch => ch ≠ '.')⟩

/-- Model of `generateStickerFilename(originalFilename)`: a fixed stem, an optional suffix from
the part of the original name before the first dot, ISO timestamp (passed in,
since it comes from `new Date()`), `.webp` extension.  The JS truthiness check
on the optional argument becomes an `= ""` test. -/
def generateStickerFilename (originalFilename : String) (isoTimestamp : String) :
    String :=
  let sfx :=
    if originalFilename = "" then ""
    else "-" ++ beforeFirstDot originalFilename
  "whatsapp-sticker" ++ sfx ++ "-" ++ isoTimestamp ++ ".webp"

/-- The `VideoProcessorState` record of the hook: `isProcessing`, `progress`,
`error`, `result`.  The three `result` fields are always set or cleared
together, so they are modelled as one `Option ResultR`.  Progress is an `Int`:
the code stores whatever number the callback delivers. -/
structure VPState where
  isProcessing : Bool
  progress : Int
  error : Option String
  result : Option ResultR
deriving Repr, DecidableEq

/-- The state a fresh hook starts in, and the state `reset` restores. -/
def idleState : VPState :=
  { isProcessing := false, progress := 0, error := none, result := none }

/-- The message `cancelProcessing` stores in `error`. -/
def cancelledMsg : String := "Processing cancelled"

/-- The error thrown when `isWebAssemblySupported()` is false. -/
def wasmErrorMsg : String :=
  "WebAssembly is not supported in this browser. Please try a different browser."

/-- Model of `cancelProcessing()`: only acts when an abort controller is registered and
`isProcessing` is true; then it raises the abort signal and overwrites
`isProcessing/progress/error` (the result field is untouched).  The returned
`Bool` records whether the abort signal was raised. -/
def cancelProcessing (hasController : Bool) (st : VPState) : VPState × Bool :=
  if hasController && st.isProcessing then
    ({ st with isProcessing := false, progress := 0, error := some cancelledMsg },
      true)
  else (st, false)

/-- Model of `reset()`: calls `cancelProcessing`, revokes the current result's url when
present (JS truthiness on `stateRef.current.result.url`), and restores the
initial state.  The body never touches `processedCache`, so the cache is passed
through unchanged.  Returns (new state, cache, url events, abort raised). -/
def reset (hasController : Bool) (st : VPState) (c : Cache) :
    VPState × Cache × List CacheEvent × Bool :=
  let cancelled := cancelProcessing hasController st
  let evs :=
    match cancelled.1.result with
    | some r => if r.url = "" then [] else [CacheEvent.revoke r.url]
    | none => []
  (idleState, c, evs, cancelled.2)

/-- One event delivered while the transcoder runs: either the progress
callback fires with value `v`, or the user calls `cancelProcessing`. -/
inductive RunEvent
  | progress (v : Int)
  | cancel
deriving Repr, DecidableEq

/-- How the transcoder invocation itself ends: the output blob is read and a
url is created for it, or the awaited chain rejects with an error message. -/
inductive Outcome
  | success (blob : Nat) (url : String)
  | failure (msg : String)
deriving Repr, DecidableEq

/-- The loop state while the transcoder runs: the controller state, the abort
flag of the `AbortController`, and whether `handleProgress` has thrown (which
rejects the awaited chain, so later steps of the `try` block never run). -/
structure LoopSt where
  st : VPState
  aborted : Bool
  threw : Bool
deriving Repr, DecidableEq

/-- One event step.  `handleProgress(progress)` throws when the signal is
already aborted, otherwise stores the value as-is via
`setState(prev => ({ ...prev, progress }))`.  A `cancel` event runs
`cancelProcessing` (the abort controller is registered while in flight). -/
def stepEvent (ls : LoopSt) (e : RunEvent) : LoopSt :=
  if ls.threw then ls
  else
    match e with
    | RunEvent.progress v =>
        if ls.aborted then { ls with threw := true }
        else { ls with st := { ls.st with progress := v } }
    | RunEvent.cancel =>
        let r := cancelProcessing true ls.st
        if r.2 then { ls with st := r.1, aborted := true } else ls

/-- The controller-state values observed after each event of a run, starting
from `ls` (the externally observable progress history). -/
def progressTrace (ls : LoopSt) (sched : List RunEvent) : List Int :=
  match sched with
  | [] => []
  | e :: rest =>
      let ls' := stepEvent ls e
      ls'.st.progress :: progressTrace ls' rest

/-- What a call of `processVideoFile` returns to its caller: a thrown error,
or a `{ blob, url, filename }` value (`stateRef.current.result` on the
cancelled path, which can be empty). -/
inductive CallRet
  | threw (msg : String)
  | value (r : Option ResultR)
deriving Repr, DecidableEq

/-- Inputs of one `processVideoFile` call that come from the environment:
WebAssembly support, the `enableCache` option, `Date.now()` and the ISO
timestamp used for the generated filename. -/
structure ProcEnv where
  wasmSupported : Bool
  enableCache : Bool
  now : Nat
  isoNow : String
deriving Repr, DecidableEq

/-- Everything observable about one `processVideoFile` call. -/
structure ProcResult where
  state : VPState
  cache : Cache
  events : List CacheEvent
  transcoderCalls : Nat
  ret : CallRet
deriving Repr, DecidableEq

/-- Model of `processVideoFile(file)` under a fixed schedule of run events and a fixed
transcoder outcome.  Follows the source order: WebAssembly check; cache lookup
(timestamp refresh and early return on a hit — no transcoder call); state
reset; revocation of the previous result's url; the transcoder run delivering
`sched` and finishing with `outcome`; success / failure handling, with the
whole `catch` block skipped into a plain `return stateRef.current.result` when
the abort signal was raised. -/
def processVideoFile (env : ProcEnv) (c : Cache) (st0 : VPState)
    (file : SourceFile) (sched : List RunEvent) (outcome : Outcome) :
    ProcResult :=
  if env.wasmSupported = false then
    { state := { st0 with isProcessing := false
                          error := some wasmErrorMsg
                          progress := 0 },
      cache := c, events := [], transcoderCalls := 0,
      ret := CallRet.threw wasmErrorMsg }
  else
    let key := defaultGetCacheKey file
    let hit := if env.enableCache then mapGet c key else none
    match hit with
    | some cached =>
        let res : ResultR := ⟨cached.blob, cached.url, cached.filename⟩
        { state := { st0 with isProcessing := false
                              progress := 100
                              error := none
                              result := some res },
          cache := mapRefresh c key env.now, events := [],
          transcoderCalls := 0, ret := CallRet.value (some res) }
    | none =>
        let stRun : VPState :=
          { isProcessing := true, progress := 0, error := none, result := none }
        let prevEvs :=
          match st0.result with
          | some r => if r.url = "" then [] else [CacheEvent.revoke r.url]
          | none => []
        let ls := sched.foldl stepEvent ⟨stRun, false, false⟩
        if ls.threw then
          { state := ls.st, cache := c, events := prevEvs,
            transcoderCalls := 1, ret := CallRet.value ls.st.result }
        else
          match outcome with
          | Outcome.success blob url =>
              let filename := generateStickerFilename file.name env.isoNow
              let res : ResultR := ⟨blob, url, filename⟩
              let added := addToCache env.enableCache env.now c key res
              { state := { ls.st with isProcessing := false
                                      progress := 100
                                      error := none
                                      result := some res },
                cache := added.1, events := prevEvs ++ added.2,
                transcoderCalls := 1, ret := CallRet.value (some res) }
          | Outcome.failure msg =>
              if ls.aborted then
                { state := ls.st, cache := c, events := prevEvs,
                  transcoderCalls := 1, ret := CallRet.value ls.st.result }
              else
                { state := { ls.st with isProcessing := false
                                        error := some msg
                                        progress := 0 },
                  cache := c, events := prevEvs, transcoderCalls := 1,
                  ret := CallRet.threw msg }

/-- Checks that `pat` is a leading segment of `s` (helper for the substring test). -/
def startsWithChars : List Char → List Char → Bool
  | _, [] => true
  | [], _ :: _ => false
  | c :: cs, p :: ps => c = p && startsWithChars cs ps

/-- Substring search over character lists. -/
def hasSubstrChars : List Char → List Char → Bool
  | s, pat =>
    if startsWithChars s pat then true
    else
      match s with
      | [] => false
      | _ :: cs => hasSubstrChars cs pat

/-- JavaScript `String.prototype.includes`. -/
def includes (s pat : String) : Bool := hasSubstrChars s.data pat.data

/-- The `ErrorType` enum of `src/lib/error-handler.ts`. -/
inductive ErrorType
  | FILE_TYPE
  | FILE_SIZE
  | FILE_DURATION
  | FILE_DIMENSIONS
  | FILE_CORRUPTED
  | PROCESSING_FAILED
  | MEMORY_LIMIT
  | OPERATION_TIMEOUT
  | BROWSER_UNSUPPORTED
  | WASM_UNSUPPORTED
  | MOBILE_LIMITATIONS
  | NETWORK_ERROR
  | UNKNOWN_ERROR
deriving Repr, DecidableEq

/-- The fields of `AppError` relevant to classification: the category and the
user-facing message (severity, details, original error and troubleshooting
tips are constants per branch and carry no extra information). -/
structure AppError where
  type : ErrorType
  message : String
deriving Repr, DecidableEq

/-- Model of `createProcessingError(error)`: classifies a transcoder failure message by
substring matching, in source order — memory patterns first, then timeout
patterns, then the generic fallback. -/
def createProcessingError (errorMsg : String) : AppError :=
  if includes errorMsg "memory" || includes errorMsg "allocation failed" then
    ⟨ErrorType.MEMORY_LIMIT, "Not enough memory to process the video"⟩
  else if includes errorMsg "timeout" || includes errorMsg "took too long" then
    ⟨ErrorType.OPERATION_TIMEOUT, "Processing took too long and timed out"⟩
  else
    ⟨ErrorType.PROCESSING_FAILED, "Failed to process the video"⟩

/-- Constant `STICKER_REQUIREMENTS.SUPPORTED_INPUT_FORMATS`. -/
def SUPPORTED_INPUT_FORMATS : List String :=
  ["video/mp4", "video/quicktime", "video/webm"]

/-- Constant `STICKER_REQUIREMENTS.MAX_FILE_SIZE_MB` as read by the validators module
(`src/lib/utils.ts` exports the scalar `50`). -/
def MAX_FILE_SIZE_MB : Nat := 50

/-- Constant `STICKER_REQUIREMENTS.MAX_DURATION_SECONDS`. -/
def MAX_DURATION_SECONDS : ℚ := 3

/-- Model of `validateFileType(file)`: `errorMessage` is `none` exactly when the MIME
type is supported (the null-file branch has no counterpart: a `SourceFile` is
always present). -/
def validateFileType (f : SourceFile) : Option String :=
  if SUPPORTED_INPUT_FORMATS.contains f.mime then none
  else some "Unsupported file format. Please upload MP4, QUICKTIME, WEBM files only."

/-- Model of `validateFileSize(file)`: a single ceiling of `MAX_FILE_SIZE_MB` megabytes,
with no device dependence. -/
def validateFileSize (f : SourceFile) : Option String :=
  if f.size ≤ MAX_FILE_SIZE_MB * 1024 * 1024 then none
  else some "File too large. Maximum size allowed is 50MB."

/-- Model of `validateVideoDuration(file)`: rejects non-`video/*` MIME types, reports a
probe failure when the metadata cannot be decoded, otherwise compares the
decoded duration against the limit. -/
def validateVideoDuration (f : SourceFile) : Option String :=
  if startsWithChars f.mime.data ("video/").data = false then
    some "Not a valid video file"
  else
    match f.duration with
    | none => some "Failed to read video duration. The file might be corrupted."
    | some d =>
        if d ≤ MAX_DURATION_SECONDS then none
        else some "Video too long. Maximum duration allowed is 3 seconds."

/-- Model of `validateVideoFile(file, options)`: pushes the type, size and (when
requested and the type is valid) duration failure messages in order; the file
is valid exactly when the list is empty. -/
def validateVideoFile (f : SourceFile) (checkDuration : Bool) : List String :=
  let e1 := match validateFileType f with | some m => [m] | none => []
  let e2 := match validateFileSize f with | some m => [m] | none => []
  let e3 :=
    if checkDuration && (validateFileType f).isNone then
      match validateVideoDuration f with | some m => [m] | none => []
    else []
  e1 ++ e2 ++ e3

/-! Basic lemmas about the association-list cache operations. -/

theorem mapGet_mapSet_self (c : Cache) (k : String) (e : CacheEntry) :
    mapGet (mapSet c k e) k = some e := by
  induction c with
  | nil => simp [mapSet, mapGet]
  | cons p rest ih =>
      by_cases h : p.1 = k
      · simp [mapSet, mapGet, h]
      · simp [mapSet, mapGet, h, ih]

theorem mapGet_mapSet_of_ne (c : Cache) (k k' : String) (e : CacheEntry)
    (h : k' ≠ k) : mapGet (mapSet c k e) k' = mapGet c k' := by
  induction c with
  | nil =>
      simp only [mapSet, mapGet]
      rw [if_neg (fun hh => h hh.symm)]
  | cons p rest ih =>
      by_cases hp : p.1 = k
      · subst hp
        simp only [mapSet, if_pos rfl, mapGet]
        rw [if_neg (fun hh => h hh.symm)]
        rw [if_neg (fun hh => h hh.symm)]
      · simp [mapSet, hp, mapGet, ih]

theorem exists_mem_of_mapGet_isSome (c : Cache) (k : String)
    (h : (mapGet c k).isSome) : ∃ e, (k, e) ∈ c := by
  induction c with
  | nil => simp [mapGet] at h
  | cons p rest ih =>
      by_cases hp : p.1 = k
      · exact ⟨p.2, by rw [← hp]; exact List.mem_cons_self p rest⟩
      · simp only [mapGet, if_neg hp] at h
        obtain ⟨e, he⟩ := ih h
        exact ⟨e, List.mem_cons_of_mem _ he⟩

theorem mapGet_isSome_of_mem (c : Cache) (k : String) (e : CacheEntry)
    (h : (k, e) ∈ c) : (mapGet c k).isSome := by
  induction c with
  | nil => simp at h
  | cons p rest ih =>
      rcases List.mem_cons.mp h with h' | h'
      · simp [mapGet, ← h']
      · by_cases hp : p.1 = k
        · simp [mapGet, hp]
        · simp [mapGet, hp, ih h']

theorem mapGet_eq_some_of_mem (c : Cache) (k : String) (e : CacheEntry)
    (hnd : (c.map Prod.fst).Nodup) (h : (k, e) ∈ c) : mapGet c k = some e := by
  induction c with
  | nil => simp at h
  | cons p rest ih =>
      simp only [List.map_cons, List.nodup_cons] at hnd
      rcases List.mem_cons.mp h with h' | h'
      · rw [← h']
        simp [mapGet]
      · have hp : p.1 ≠ k := by
          intro hk
          exact hnd.1 (hk ▸ List.mem_map.mpr ⟨(k, e), h', rfl⟩ : p.1 ∈ _)
        simp [mapGet, hp, ih hnd.2 h']

theorem mapDelete_length (c : Cache) (k : String)
    (h : (mapGet c k).isSome) : c.length = (mapDelete c k).length + 1 := by
  induction c with
  | nil => simp [mapGet] at h
  | cons p rest ih =>
      by_cases hp : p.1 = k
      · simp [mapDelete, hp]
      · simp only [mapGet, if_neg hp] at h
        simp [mapDelete, hp, ih h]

theorem mapGet_mapDelete_self (c : Cache) (k : String)
    (hnd : (c.map Prod.fst).Nodup) : mapGet (mapDelete c k) k = none := by
  induction c with
  | nil => simp [mapDelete, mapGet]
  | cons p rest ih =>
      simp only [List.map_cons, List.nodup_cons] at hnd
      by_cases hp : p.1 = k
      · subst hp
        simp only [mapDelete, eq_self_iff_true, if_true]
        cases hrest : mapGet rest p.1 with
        | none => rfl
        | some e =>
            exfalso
            obtain ⟨e', he'⟩ :=
              exists_mem_of_mapGet_isSome rest p.1 (by simp [hrest])
            exact hnd.1 (List.mem_map.mpr ⟨(p.1, e'), he', rfl⟩)
      · simp [mapDelete, hp, mapGet, ih hnd.2]

theorem mapGet_mapDelete_of_none (c : Cache) (k k' : String)
    (h : mapGet c k = none) : mapGet (mapDelete c k') k = none := by
  induction c with
  | nil => simp [mapDelete, mapGet]
  | cons p rest ih =>
      by_cases hp : p.1 = k
      · simp [mapGet, hp] at h
      · simp only [mapGet, if_neg hp] at h
        by_cases hp' : p.1 = k'
        · simp [mapDelete, hp', h]
        · simp [mapDelete, hp', mapGet, hp, ih h]

theorem mapSet_length_of_none (c : Cache) (k : String) (e : CacheEntry)
    (h : mapGet c k = none) : (mapSet c k e).length = c.length + 1 := by
  induction c with
  | nil => simp [mapSet]
  | cons p rest ih =>
      by_cases hp : p.1 = k
      · simp [mapGet, hp] at h
      · simp only [mapGet, if_neg hp] at h
        simp [mapSet, hp, ih h]

theorem mapGet_mapRefresh_self (c : Cache) (k : String) (now : Nat) :
    mapGet (mapRefresh c k now) k =
      (mapGet c k).map (fun e => { e with timestamp := now }) := by
  induction c with
  | nil => simp [mapRefresh, mapGet]
  | cons p rest ih =>
      by_cases hp : p.1 = k
      · simp [mapRefresh, mapGet, hp]
      · simp [mapRefresh, mapGet, hp, ih]

/-! Lemmas about the eviction scan: the accumulator keeps a strict minimum. -/

theorem oldestAcc_keep (c : Cache) (k0 : String) (t0 : Nat)
    (h : ∀ p ∈ c, ¬ p.2.timestamp < t0) :
    oldestAcc c (some (k0, t0)) = some (k0, t0) := by
  induction c with
  | nil => rfl
  | cons p rest ih =>
      have hp := h p (List.mem_cons_self p rest)
      simp only [oldestAcc, if_neg hp]
      exact ih fun q hq => h q (List.mem_cons_of_mem p hq)

theorem oldestAcc_found (c : Cache) (k0 : String) (e0 : CacheEntry) :
    ∀ b : String, ∀ bt : Nat,
      (c.map Prod.fst).Nodup → (k0, e0) ∈ c →
      (∀ p ∈ c, p.1 ≠ k0 → e0.timestamp < p.2.timestamp) →
      e0.timestamp < bt →
      oldestAcc c (some (b, bt)) = some (k0, e0.timestamp) := by
  induction c with
  | nil => intro b bt _ hmem _ _; simp at hmem
  | cons p rest ih =>
      intro b bt hnd hmem hmin hbt
      simp only [List.map_cons, List.nodup_cons] at hnd
      rcases List.mem_cons.mp hmem with hp | hp
      · subst hp
        simp only [oldestAcc, if_pos hbt]
        apply oldestAcc_keep
        intro q hq
        have hq1 : q.1 ≠ k0 := by
          intro he
          exact hnd.1 (he ▸ List.mem_map.mpr ⟨q, hq, rfl⟩)
        exact Nat.lt_asymm (hmin q (List.mem_cons_of_mem _ hq) hq1)
      · have hp1 : p.1 ≠ k0 := by
          intro he
          exact hnd.1 (he ▸ List.mem_map.mpr ⟨(k0, e0), hp, rfl⟩)
        have hlt := hmin p (List.mem_cons_self p rest) hp1
        simp only [oldestAcc]
        by_cases hc : p.2.timestamp < bt
        · rw [if_pos hc]
          exact ih p.1 p.2.timestamp hnd.2 hp
            (fun q hq hq1 => hmin q (List.mem_cons_of_mem p hq) hq1) hlt
        · rw [if_neg hc]
          exact ih b bt hnd.2 hp
            (fun q hq hq1 => hmin q (List.mem_cons_of_mem p hq) hq1) hbt

theorem oldestKey_min (c : Cache) (k0 : String) (e0 : CacheEntry)
    (hnd : (c.map Prod.fst).Nodup) (hmem : (k0, e0) ∈ c)
    (hmin : ∀ p ∈ c, p.1 ≠ k0 → e0.timestamp < p.2.timestamp) :
    oldestKey c = some k0 := by
  cases c with
  | nil => simp at hmem
  | cons p rest =>
      simp only [List.map_cons, List.nodup_cons] at hnd
      unfold oldestKey
      simp only [oldestAcc]
      rcases List.mem_cons.mp hmem with hp | hp
      · subst hp
        rw [oldestAcc_keep]
        · rfl
        · intro q hq
          have hq1 : q.1 ≠ k0 := by
            intro he
            exact hnd.1 (he ▸ List.mem_map.mpr ⟨q, hq, rfl⟩)
          exact Nat.lt_asymm (hmin q (List.mem_cons_of_mem _ hq) hq1)
      · have hp1 : p.1 ≠ k0 := by
          intro he
          exact hnd.1 (he ▸ List.mem_map.mpr ⟨(k0, e0), hp, rfl⟩)
        have hlt := hmin p (List.mem_cons_self p rest) hp1
        rw [oldestAcc_found rest k0 e0 p.1 p.2.timestamp hnd.2 hp
          (fun q hq hq1 => hmin q (List.mem_cons_of_mem p hq) hq1) hlt]
        rfl

/-! Lemmas about the event loop of one transcoder run. -/

theorem foldl_stepEvent_progress_only (sched : List RunEvent) :
    ∀ ls : LoopSt, RunEvent.cancel ∉ sched →
      ls.aborted = false → ls.threw = false →
      (sched.foldl stepEvent ls).aborted = false ∧
      (sched.foldl stepEvent ls).threw = false ∧
      (sched.foldl stepEvent ls).st.isProcessing = ls.st.isProcessing ∧
      (sched.foldl stepEvent ls).st.error = ls.st.error ∧
      (sched.foldl stepEvent ls).st.result = ls.st.result := by
  induction sched with
  | nil => intro ls _ ha ht; exact ⟨ha, ht, rfl, rfl, rfl⟩
  | cons e rest ih =>
      intro ls hnc ha ht
      cases e with
      | cancel => exact absurd (List.mem_cons_self _ _) (fun h => hnc h)
      | progress v =>
          have hstep : stepEvent ls (RunEvent.progress v) =
              ⟨{ ls.st with progress := v }, ls.aborted, ls.threw⟩ := by
            simp [stepEvent, ht, ha]
          have hrest : RunEvent.cancel ∉ rest :=
            fun h => hnc (List.mem_cons_of_mem _ h)
          simp only [List.foldl_cons, hstep]
          have := ih ⟨{ ls.st with progress := v }, ls.aborted, ls.threw⟩
            hrest ha ht
          exact this

theorem foldl_stepEvent_of_threw (sched : List RunEvent) :
    ∀ ls : LoopSt, ls.threw = true → sched.foldl stepEvent ls = ls := by
  induction sched with
  | nil => intro ls _; rfl
  | cons e rest ih =>
      intro ls ht
      have hstep : stepEvent ls e = ls := by simp [stepEvent, ht]
      simp only [List.foldl_cons, hstep]
      exact ih ls ht

theorem foldl_stepEvent_after_abort (sched : List RunEvent) :
    ∀ ls : LoopSt, ls.aborted = true → ls.st.isProcessing = false →
      (sched.foldl stepEvent ls).st = ls.st ∧
      (sched.foldl stepEvent ls).aborted = true ∧
      (sched.foldl stepEvent ls).st.isProcessing = false := by
  induction sched with
  | nil => intro ls ha hip; exact ⟨rfl, ha, hip⟩
  | cons e rest ih =>
      intro ls ha hip
      by_cases ht : ls.threw = true
      · have hstep : stepEvent ls e = ls := by simp [stepEvent, ht]
        simp only [List.foldl_cons, hstep]
        exact ih ls ha hip
      · simp only [Bool.not_eq_true] at ht
        cases e with
        | progress v =>
            have hstep : stepEvent ls (RunEvent.progress v) =
                { ls with threw := true } := by
              simp [stepEvent, ht, ha]
            simp only [List.foldl_cons, hstep]
            exact ih { ls with threw := true } ha hip
        | cancel =>
            have hstep : stepEvent ls RunEvent.cancel = ls := by
              simp [stepEvent, ht, cancelProcessing, hip]
            simp only [List.foldl_cons, hstep]
            exact ih ls ha hip

theorem foldl_stepEvent_abort_throws (sched : List RunEvent) :
    ∀ ls : LoopSt, ls.aborted = true → ls.st.isProcessing = false →
      (∃ v, RunEvent.progress v ∈ sched) →
      (sched.foldl stepEvent ls).threw = true := by
  induction sched with
  | nil => intro ls _ _ hex; simp at hex
  | cons e rest ih =>
      intro ls ha hip hex
      by_cases ht : ls.threw = true
      · have hstep : stepEvent ls e = ls := by simp [stepEvent, ht]
        simp only [List.foldl_cons, hstep]
        rw [foldl_stepEvent_of_threw rest ls ht]
        exact ht
      · simp only [Bool.not_eq_true] at ht
        cases e with
        | progress v =>
            have hstep : stepEvent ls (RunEvent.progress v) =
                { ls with threw := true } := by
              simp [stepEvent, ht, ha]
            simp only [List.foldl_cons, hstep]
            rw [foldl_stepEvent_of_threw rest { ls with threw := true } rfl]
        | cancel =>
            have hstep : stepEvent ls RunEvent.cancel = ls := by
              simp [stepEvent, ht, cancelProcessing, hip]
            simp only [List.foldl_cons, hstep]
            apply ih ls ha hip
            obtain ⟨v, hv⟩ := hex
            rcases List.mem_cons.mp hv with hv' | hv'
            · exact absurd hv' (by simp)
            · exact ⟨v, hv'⟩

theorem foldl_stepEvent_abort_no_progress (sched : List RunEvent) :
    ∀ ls : LoopSt, ls.aborted = true → ls.st.isProcessing = false →
      (∀ v, RunEvent.progress v ∉ sched) →
      sched.foldl stepEvent ls = ls := by
  induction sched with
  | nil => intro ls _ _ _; rfl
  | cons e rest ih =>
      intro ls ha hip hnp
      cases e with
      | progress v => exact absurd (List.mem_cons_self _ _) (hnp v)
      | cancel =>
          have hstep : stepEvent ls RunEvent.cancel = ls := by
            by_cases ht : ls.threw = true
            · simp [stepEvent, ht]
            · simp only [Bool.not_eq_true] at ht
              simp [stepEvent, ht, cancelProcessing, hip]
          simp only [List.foldl_cons, hstep]
          exact ih ls ha hip fun v hv => hnp v (List.mem_cons_of_mem _ hv)

/-- A boolean non-decreasing check on integer lists, used to state the
monotonic-progress property. -/
def nondecreasingI : List Int → Bool
  | [] => true
  | [_] => true
  | a :: b :: rest => a ≤ b && nondecreasingI (b :: rest)

/-- A concrete in-flight loop state: the controller has entered the miss path
(`isProcessing` true, progress 0), nothing aborted or thrown yet. -/
def runStart : LoopSt :=
  ⟨⟨true, 0, none, none⟩, false, false⟩

/-- A concrete input file used by witnesses and counterexamples. -/
def exampleFile : SourceFile := ⟨"a.mp4", 10, 5, "video/mp4", some 2⟩

/-! Claim theorems. -/

/-- Claim C2, counterexample: the progress callback stores values as-is, so
the callback inputs `[5, 3, 50, 40, 100]` are observed unchanged — not as the
claimed clamped sequence `[5, 5, 50, 50, 100]` — and the observed sequence is
not non-decreasing. -/
theorem progress_not_clamped_cex :
    progressTrace runStart ([5, 3, 50, 40, 100].map RunEvent.progress) =
      [5, 3, 50, 40, 100] ∧
    progressTrace runStart ([5, 3, 50, 40, 100].map RunEvent.progress) ≠
      [5, 5, 50, 50, 100] ∧
    nondecreasingI
      (progressTrace runStart ([5, 3, 50, 40, 100].map RunEvent.progress)) =
      false := by
  decide

/-- Claim C2, amended: `handleProgress` performs no clamping and no
monotonicity enforcement; for any sequence of progress callback values the
externally observed progress sequence is exactly the input sequence. -/
theorem progress_passthrough (vals : List Int) (st : VPState) :
    progressTrace ⟨st, false, false⟩ (vals.map RunEvent.progress) = vals := by
  induction vals generalizing st with
  | nil => rfl
  | cons v rest ih =>
      have hstep : stepEvent ⟨st, false, false⟩ (RunEvent.progress v) =
          ⟨{ st with progress := v }, false, false⟩ := by
        simp [stepEvent]
      simp only [List.map_cons, progressTrace, hstep]
      rw [ih { st with progress := v }]

/-- Claim C6, counterexample: after `cancelProcessing` on a running state the
observable state carries `error = some "Processing cancelled"` — the same
error field callers read for failures — so the cancelled state is not free of
error. -/
theorem cancelled_state_carries_error_cex :
    (cancelProcessing true ⟨true, 40, none, none⟩).1 =
      ⟨false, 0, some cancelledMsg, none⟩ ∧
    (cancelProcessing true ⟨true, 40, none, none⟩).1.error ≠ none := by
  decide

/-- Claim C6, amended: cancelling an in-flight conversion produces a terminal
state represented through the shared error field with the fixed message
"Processing cancelled" (processing stopped, progress reset, result kept);
it is distinguishable from other failures only by that message, not by a
distinct cancelled variant. -/
theorem cancel_sets_error_message (st : VPState) (h : st.isProcessing = true) :
    cancelProcessing true st =
      ({ st with isProcessing := false, progress := 0,
                 error := some cancelledMsg }, true) := by
  simp [cancelProcessing, h]

/-- Witness for `cancel_sets_error_message` at a concrete running state. -/
theorem cancel_sets_error_message_witness :
    (⟨true, 40, none, none⟩ : VPState).isProcessing = true ∧
    cancelProcessing true ⟨true, 40, none, none⟩ =
      (⟨false, 0, some cancelledMsg, none⟩, true) :=
  ⟨rfl, cancel_sets_error_message ⟨true, 40, none, none⟩ rfl⟩

/-- Claim C10: calling `cancelProcessing` when no conversion is running is a
no-op — no abort signal is raised and the observable state is unchanged —
whether or not an abort controller is still registered. -/
theorem cancel_noop_when_idle (hasController : Bool) (st : VPState)
    (h : st.isProcessing = false) :
    cancelProcessing hasController st = (st, false) := by
  simp [cancelProcessing, h]

/-- Witness for `cancel_noop_when_idle` at the idle state. -/
theorem cancel_noop_when_idle_witness :
    idleState.isProcessing = false ∧
    cancelProcessing true idleState = (idleState, false) :=
  ⟨rfl, cancel_noop_when_idle true idleState rfl⟩

/-- Claim C7, counterexample: classification checks the memory patterns first,
so the message "memory timeout", which contains the timeout substring, is
classified as the memory-limit category, not the operation-timeout category
the claim requires for every message containing a timeout substring. -/
theorem classification_precedence_cex :
    includes "memory timeout" "timeout" = true ∧
    (createProcessingError "memory timeout").type = ErrorType.MEMORY_LIMIT ∧
    (createProcessingError "memory timeout").type ≠
      ErrorType.OPERATION_TIMEOUT := by
  decide

/-- Claim C7, amended: `createProcessingError` classifies by substring
matching in order — messages matching a memory pattern ("memory" or
"allocation failed") map to the memory-limit category; messages matching no
memory pattern but a timeout pattern ("timeout" or "took too long") map to
the operation-timeout category; all remaining messages fall back to the
generic processing-failed category — so classification is total, and the
controller surfaces a transcoder failure as a terminal failed state after a
single transcoder invocation (no automatic retry). -/
theorem classification_order (msg : String) :
    ((includes msg "memory" || includes msg "allocation failed") = true →
      (createProcessingError msg).type = ErrorType.MEMORY_LIMIT) ∧
    ((includes msg "memory" || includes msg "allocation failed") = false →
      (includes msg "timeout" || includes msg "took too long") = true →
      (createProcessingError msg).type = ErrorType.OPERATION_TIMEOUT) ∧
    ((includes msg "memory" || includes msg "allocation failed") = false →
      (includes msg "timeout" || includes msg "took too long") = false →
      (createProcessingError msg).type = ErrorType.PROCESSING_FAILED) ∧
    ((createProcessingError msg).type = ErrorType.MEMORY_LIMIT ∨
      (createProcessingError msg).type = ErrorType.OPERATION_TIMEOUT ∨
      (createProcessingError msg).type = ErrorType.PROCESSING_FAILED) ∧
    ((processVideoFile ⟨true, true, 0, "T"⟩ [] idleState exampleFile []
        (Outcome.failure msg)).state.error = some msg ∧
      (processVideoFile ⟨true, true, 0, "T"⟩ [] idleState exampleFile []
        (Outcome.failure msg)).state.isProcessing = false ∧
      (processVideoFile ⟨true, true, 0, "T"⟩ [] idleState exampleFile []
        (Outcome.failure msg)).transcoderCalls = 1) := by
  refine ⟨?_, ?_, ?_, ?_, rfl, rfl, rfl⟩
  · intro h
    simp [createProcessingError, h]
  · intro h1 h2
    simp [createProcessingError, h1, h2]
  · intro h1 h2
    simp [createProcessingError, h1, h2]
  · by_cases h1 : (includes msg "memory" || includes msg "allocation failed") = true
    · left; simp [createProcessingError, h1]
    · simp only [Bool.not_eq_true] at h1
      by_cases h2 : (includes msg "timeout" || includes msg "took too long") = true
      · right; left; simp [createProcessingError, h1, h2]
      · simp only [Bool.not_eq_true] at h2
        right; right; simp [createProcessingError, h1, h2]

/-- Witness for `classification_order` at a message matching only the timeout
patterns. -/
theorem classification_order_witness :
    (includes "operation timeout" "memory" ||
      includes "operation timeout" "allocation failed") = false ∧
    (includes "operation timeout" "timeout" ||
      includes "operation timeout" "took too long") = true ∧
    (createProcessingError "operation timeout").type =
      ErrorType.OPERATION_TIMEOUT :=
  ⟨by decide, by decide,
    (classification_order "operation timeout").2.1 (by decide) (by decide)⟩

/-- Claim C5, counterexample: with the cleanup interval `MAX_CACHE_AGE / 2`
started at the insertion time `t = 0`, every scan that can run by time
`t = 1800001` (at 0, 900000 and 1800000) leaves the entry in place, because
the scan at 1800000 tests the strict inequality `now - timestamp >
MAX_CACHE_AGE`; the entry is therefore still present — and its url not
revoked — when queried at `t = 1800001`. -/
theorem expired_entry_survives_cex :
    MAX_CACHE_AGE = 1800000 ∧
    (List.range 3).map (fun i => i * (MAX_CACHE_AGE / 2)) =
      [0, 900000, 1800000] ∧
    runScans [("k", ⟨1, "blob:x", "f.webp", 0⟩)] [0, 900000, 1800000] =
      ([("k", ⟨1, "blob:x", "f.webp", 0⟩)], []) ∧
    mapGet
      (runScans [("k", ⟨1, "blob:x", "f.webp", 0⟩)] [0, 900000, 1800000]).1
      "k" = some ⟨1, "blob:x", "f.webp", 0⟩ := by
  decide

/-- Claim C5, amended: the periodic scan removes an entry at the first scan
time strictly greater than its timestamp plus `MAX_CACHE_AGE`; for an entry
inserted at `t = 0` with scans every 900000 ms from `t = 0`, the entry is
still present (url unrevoked) after the scans at 0, 900000 and 1800000 — so
also when queried at `t = 1800001` — and is removed, with its url revoked
exactly once, by the scan at `t = 2700000`. -/
theorem expiry_purge_schedule (k u fn : String) (b : Nat) (hu : u ≠ "") :
    runScans [(k, ⟨b, u, fn, 0⟩)] [0, 900000, 1800000] =
      ([(k, ⟨b, u, fn, 0⟩)], []) ∧
    runScans [(k, ⟨b, u, fn, 0⟩)] [0, 900000, 1800000, 2700000] =
      ([], [CacheEvent.revoke u, CacheEvent.remove k]) := by
  constructor
  · simp [runScans, cleanCache, MAX_CACHE_AGE]
  · simp [runScans, cleanCache, MAX_CACHE_AGE, mapGet, mapDelete, hu]

/-- Witness for `expiry_purge_schedule` at a concrete entry. -/
theorem expiry_purge_schedule_witness :
    ("blob:x" : String) ≠ "" ∧
    runScans [("j", ⟨2, "blob:x", "g.webp", 0⟩)] [0, 900000, 1800000, 2700000] =
      ([], [CacheEvent.revoke "blob:x", CacheEvent.remove "j"]) :=
  ⟨by decide, (expiry_purge_schedule "j" "blob:x" "g.webp" 2 (by decide)).2⟩

/-- Claim C8: `reset` restores the idle state, revokes the current result's
url when one is present, raises the abort signal exactly when a conversion is
in flight (and an abort controller is registered), and leaves the shared
process-wide cache completely unchanged. -/
theorem reset_preserves_cache (hasController : Bool) (st : VPState) (c : Cache) :
    reset hasController st c =
      (idleState, c,
        (match st.result with
          | some r => if r.url = "" then [] else [CacheEvent.revoke r.url]
          | none => []),
        hasController && st.isProcessing) := by
  by_cases hg : (hasController && st.isProcessing) = true
  · simp [reset, cancelProcessing, hg]
  · simp only [Bool.not_eq_true] at hg
    simp [reset, cancelProcessing, hg]

/-- Helper: every supported MIME type starts with "video/". -/
theorem mem_supported_startsWithChars (m : String)
    (h : m ∈ SUPPORTED_INPUT_FORMATS) :
    startsWithChars m.data ("video/").data = true := by
  simp only [SUPPORTED_INPUT_FORMATS, List.mem_cons, List.not_mem_nil,
    or_false] at h
  rcases h with rfl | rfl | rfl <;> decide

/-- Helper: `List.contains` agrees with membership for the format list. -/
theorem contains_iff_mem_formats (m : String) :
    SUPPORTED_INPUT_FORMATS.contains m = true ↔ m ∈ SUPPORTED_INPUT_FORMATS := by
  simp [List.contains]

/-- Claim C9, counterexample: the validator's acceptance does not depend on
the device at all, so no pair of distinct desktop/mobile ceilings can
characterize it: assuming such ceilings exist is contradictory. -/
theorem validator_device_independent_cex :
    ¬ ∃ dDesk dMob : Nat, dDesk ≠ dMob ∧
      ∀ (f : SourceFile) (isMobile checkDuration : Bool),
        (validateVideoFile f checkDuration = [] ↔
          (f.mime ∈ SUPPORTED_INPUT_FORMATS ∧
            f.size ≤ (if isMobile then dMob else dDesk) ∧
            (checkDuration = true →
              ∃ d, f.duration = some d ∧ d ≤ MAX_DURATION_SECONDS))) := by
  rintro ⟨dD, dM, hne, h⟩
  have hmem : ("video/mp4" : String) ∈ SUPPORTED_INPUT_FORMATS := by
    simp [SUPPORTED_INPUT_FORMATS]
  have key : ∀ n : Nat, n ≤ dM ↔ n ≤ dD := by
    intro n
    have h1 := h ⟨"a.mp4", n, 0, "video/mp4", some 2⟩ true false
    have h2 := h ⟨"a.mp4", n, 0, "video/mp4", some 2⟩ false false
    simp only [if_true, if_false, Bool.false_eq_true, false_implies, and_true,
      hmem, true_and] at h1 h2
    exact h1.symm.trans h2
  rcases Nat.lt_trichotomy dD dM with hlt | heq | hgt
  · exact absurd ((key dM).mp le_rfl) (Nat.not_le.mpr hlt)
  · exact hne heq
  · exact absurd ((key dD).mpr le_rfl) (Nat.not_le.mpr hgt)

/-- Claim C9, amended: the validator returns an empty failure list exactly
when the MIME type is one of video/mp4, video/quicktime, video/webm, the size
is at most the single fixed ceiling of 50 MB (there is no device dependence),
and — when the duration check is requested — the metadata probe decodes a
duration within the 3-second limit; every violated check contributes its
message to the list. -/
theorem validator_characterization (f : SourceFile) (checkDuration : Bool) :
    validateVideoFile f checkDuration = [] ↔
      (f.mime ∈ SUPPORTED_INPUT_FORMATS ∧
        f.size ≤ MAX_FILE_SIZE_MB * 1024 * 1024 ∧
        (checkDuration = true →
          ∃ d, f.duration = some d ∧ d ≤ MAX_DURATION_SECONDS)) := by
  by_cases hm : f.mime ∈ SUPPORTED_INPUT_FORMATS
  · have hct : SUPPORTED_INPUT_FORMATS.contains f.mime = true :=
      (contains_iff_mem_formats f.mime).mpr hm
    have ht : validateFileType f = none := by simp [validateFileType, hct, hm]
    have hsw := mem_supported_startsWithChars f.mime hm
    by_cases hs : f.size ≤ MAX_FILE_SIZE_MB * 1024 * 1024
    · have hsz : validateFileSize f = none := by simp [validateFileSize, hs]
      cases checkDuration with
      | false => simp [validateVideoFile, ht, hsz, hm, hs]
      | true =>
          cases hd : f.duration with
          | none =>
              simp [validateVideoFile, validateVideoDuration, ht, hsz, hm, hs,
                hsw, hd]
          | some d =>
              by_cases hdle : d ≤ MAX_DURATION_SECONDS
              · simp [validateVideoFile, validateVideoDuration, ht, hsz, hm,
                  hs, hsw, hd, hdle]
              · simp [validateVideoFile, validateVideoDuration, ht, hsz, hm,
                  hs, hsw, hd, hdle]
    · have hsz : validateFileSize f =
          some "File too large. Maximum size allowed is 50MB." := by
        simp [validateFileSize, hs]
      simp [validateVideoFile, ht, hsz, hs]
  · have hct : SUPPORTED_INPUT_FORMATS.contains f.mime = false := by
      rw [← Bool.not_eq_true]
      exact fun hc => hm ((contains_iff_mem_formats f.mime).mp hc)
    simp [validateVideoFile, validateFileType, hct, hm]

/-- Claim C3, counterexample: when `cancelProcessing` is called mid-run and
the transcoder then resolves successfully without a further progress
callback, the success path runs unchecked: the state ends up succeeded
(progress 100, a result, no error) instead of remaining cancelled. -/
theorem cancel_then_success_cex :
    (processVideoFile ⟨true, true, 1000, "T"⟩ [] idleState exampleFile
        [RunEvent.cancel] (Outcome.success 7 "blob:u")).state =
      ⟨false, 100, none,
        some ⟨7, "blob:u", generateStickerFilename exampleFile.name "T"⟩⟩ ∧
    (processVideoFile ⟨true, true, 1000, "T"⟩ [] idleState exampleFile
        [RunEvent.cancel] (Outcome.success 7 "blob:u")).state.error ≠
      some cancelledMsg ∧
    (processVideoFile ⟨true, true, 1000, "T"⟩ [] idleState exampleFile
        [RunEvent.cancel] (Outcome.success 7 "blob:u")).state.result ≠
      none := by
  decide

/-- Claim C3, amended: once `cancelProcessing` has been called, late progress
callbacks are suppressed and never update the state, and a transcoder failure
after cancellation is swallowed; in both situations the controller stays in
the cancelled state and the shared cache is untouched.  (Only a transcoder
success arriving with no further progress callback escapes the abort check,
as the counterexample shows.) -/
theorem cancel_suppresses_late_callbacks (env : ProcEnv) (c : Cache)
    (st0 : VPState) (f : SourceFile) (pre post : List RunEvent) (out : Outcome)
    (hw : env.wasmSupported = true)
    (hmiss : (if env.enableCache then mapGet c (defaultGetCacheKey f)
      else none) = none)
    (hpre : RunEvent.cancel ∉ pre)
    (hpost : (∃ v, RunEvent.progress v ∈ post) ∨
      ∃ m, out = Outcome.failure m) :
    (processVideoFile env c st0 f (pre ++ RunEvent.cancel :: post) out).state =
      ⟨false, 0, some cancelledMsg, none⟩ ∧
    (processVideoFile env c st0 f (pre ++ RunEvent.cancel :: post) out).cache =
      c ∧
    (processVideoFile env c st0 f (pre ++ RunEvent.cancel :: post) out).ret =
      CallRet.value none := by
  obtain ⟨hab, hth, hip, herr, hres⟩ :=
    foldl_stepEvent_progress_only pre ⟨⟨true, 0, none, none⟩, false, false⟩
      hpre rfl rfl
  set lsPre := pre.foldl stepEvent ⟨⟨true, 0, none, none⟩, false, false⟩
  have hstep : stepEvent lsPre RunEvent.cancel =
      ⟨⟨false, 0, some cancelledMsg, lsPre.st.result⟩, true, false⟩ := by
    simp only [stepEvent, hth, cancelProcessing, hip, Bool.and_true,
      if_true, if_false, Bool.false_eq_true]
  have hstep' : stepEvent lsPre RunEvent.cancel =
      ⟨⟨false, 0, some cancelledMsg, none⟩, true, false⟩ := by
    rw [hstep, hres]
  have hfold : (pre ++ RunEvent.cancel :: post).foldl stepEvent
      ⟨⟨true, 0, none, none⟩, false, false⟩ =
      post.foldl stepEvent ⟨⟨false, 0, some cancelledMsg, none⟩, true, false⟩ := by
    rw [List.foldl_append, List.foldl_cons, hstep']
  unfold processVideoFile
  rw [hw]
  simp only [Bool.true_eq_false, if_false]
  rw [hmiss]
  simp only [hfold]
  by_cases hex : ∃ v, RunEvent.progress v ∈ post
  · have hthrew := foldl_stepEvent_abort_throws post
      ⟨⟨false, 0, some cancelledMsg, none⟩, true, false⟩ rfl rfl hex
    obtain ⟨hst, _, _⟩ := foldl_stepEvent_after_abort post
      ⟨⟨false, 0, some cancelledMsg, none⟩, true, false⟩ rfl rfl
    rw [if_pos hthrew]
    exact ⟨hst, rfl, by rw [hst]⟩
  · have hnp : ∀ v, RunEvent.progress v ∉ post := by
      intro v hv
      exact hex ⟨v, hv⟩
    have hid := foldl_stepEvent_abort_no_progress post
      ⟨⟨false, 0, some cancelledMsg, none⟩, true, false⟩ rfl rfl hnp
    rw [hid]
    rcases hpost with hex' | ⟨m, hm⟩
    · exact absurd hex' hex
    · subst hm
      simp only [if_neg (by simp : ¬ (false = true))]
      exact ⟨rfl, rfl, rfl⟩

/-- Witness for `cancel_suppresses_late_callbacks`: a progress callback at 5,
then cancel, then a late progress callback at 50 while the transcoder
eventually reports success; the state stays cancelled. -/
theorem cancel_suppresses_late_callbacks_witness :
    (if (⟨true, true, 1000, "T"⟩ : ProcEnv).enableCache then
      mapGet [] (defaultGetCacheKey exampleFile) else none) = none ∧
    RunEvent.cancel ∉ [RunEvent.progress 5] ∧
    (∃ v, RunEvent.progress v ∈ [RunEvent.progress 50]) ∧
    (processVideoFile ⟨true, true, 1000, "T"⟩ [] idleState exampleFile
        ([RunEvent.progress 5] ++ RunEvent.cancel :: [RunEvent.progress 50])
        (Outcome.success 7 "blob:u")).state =
      ⟨false, 0, some cancelledMsg, none⟩ :=
  ⟨by decide, by decide, ⟨50, by decide⟩,
    (cancel_suppresses_late_callbacks ⟨true, true, 1000, "T"⟩ [] idleState
      exampleFile [RunEvent.progress 5] [RunEvent.progress 50]
      (Outcome.success 7 "blob:u") rfl (by decide) (by decide)
      (Or.inl ⟨50, by decide⟩)).1⟩

/-- Helper: a cache-miss run whose transcoder succeeds and whose schedule
contains no cancel ends in the succeeded state, caches the result and reports
exactly one transcoder invocation. -/
theorem run_miss_success (env : ProcEnv) (c : Cache) (st0 : VPState)
    (f : SourceFile) (sched : List RunEvent) (blob : Nat) (url : String)
    (hw : env.wasmSupported = true)
    (hmiss : (if env.enableCache then mapGet c (defaultGetCacheKey f)
      else none) = none)
    (hnc : RunEvent.cancel ∉ sched) :
    processVideoFile env c st0 f sched (Outcome.success blob url) =
      { state := ⟨false, 100, none,
          some ⟨blob, url, generateStickerFilename f.name env.isoNow⟩⟩,
        cache := (addToCache env.enableCache env.now c (defaultGetCacheKey f)
          ⟨blob, url, generateStickerFilename f.name env.isoNow⟩).1,
        events := (match st0.result with
          | some r => if r.url = "" then [] else [CacheEvent.revoke r.url]
          | none => []) ++
          (addToCache env.enableCache env.now c (defaultGetCacheKey f)
            ⟨blob, url, generateStickerFilename f.name env.isoNow⟩).2,
        transcoderCalls := 1,
        ret := CallRet.value
          (some ⟨blob, url, generateStickerFilename f.name env.isoNow⟩) } := by
  obtain ⟨hab, hth, _, _, _⟩ :=
    foldl_stepEvent_progress_only sched ⟨⟨true, 0, none, none⟩, false, false⟩
      hnc rfl rfl
  unfold processVideoFile
  rw [hw]
  simp only [Bool.true_eq_false, if_false]
  rw [hmiss]
  rw [if_neg (by rw [hth]; exact Bool.false_ne_true)]

/-- Helper: a cache-hit call refreshes only the entry's timestamp, jumps
straight to the succeeded state with progress 100, and never invokes the
transcoder. -/
theorem run_hit (env : ProcEnv) (c : Cache) (st0 : VPState) (f : SourceFile)
    (sched : List RunEvent) (out : Outcome) (e : CacheEntry)
    (hw : env.wasmSupported = true) (hec : env.enableCache = true)
    (hhit : mapGet c (defaultGetCacheKey f) = some e) :
    processVideoFile env c st0 f sched out =
      { state := { st0 with
                     isProcessing := false
                     progress := 100
                     error := none
                     result := some ⟨e.blob, e.url, e.filename⟩ },
        cache := mapRefresh c (defaultGetCacheKey f) env.now,
        events := [], transcoderCalls := 0,
        ret := CallRet.value (some ⟨e.blob, e.url, e.filename⟩) } := by
  unfold processVideoFile
  rw [hw]
  simp only [Bool.true_eq_false, if_false]
  rw [hec]
  simp only [if_true]
  rw [hhit]

/-- Helper: after a (cache-enabled) insertion the inserted key maps to the
freshly stamped entry. -/
theorem addToCache_mapGet_self (now : Nat) (c : Cache) (k : String)
    (r : ResultR) :
    mapGet (addToCache true now c k r).1 k =
      some ⟨r.blob, r.url, r.filename, now⟩ := by
  unfold addToCache
  simp only [Bool.true_eq_false, if_false]
  exact mapGet_mapSet_self _ _ _

/-- Claim C1: with caching enabled, converting `f1` (a cache miss that
succeeds) and then `f2` with the same name, size and lastModified invokes the
transcoder exactly once in total: the second call finds the entry under the
shared derived key, refreshes its recency timestamp to the second call's
clock, jumps directly to the succeeded state with progress 100, and returns
the cached result without any transcoder invocation. -/
theorem cache_hit_skips_transcoder (now1 now2 : Nat) (iso1 iso2 : String)
    (c0 : Cache) (st0 st1 : VPState) (f1 f2 : SourceFile)
    (sched1 sched2 : List RunEvent) (out2 : Outcome) (blob : Nat)
    (url : String) (r1 r2 : ProcResult) (res : ResultR)
    (hmiss : mapGet c0 (defaultGetCacheKey f1) = none)
    (hnc : RunEvent.cancel ∉ sched1)
    (hname : f2.name = f1.name) (hsize : f2.size = f1.size)
    (hlm : f2.lastModified = f1.lastModified)
    (hr1 : r1 = processVideoFile ⟨true, true, now1, iso1⟩ c0 st0 f1 sched1
      (Outcome.success blob url))
    (hr2 : r2 = processVideoFile ⟨true, true, now2, iso2⟩ r1.cache st1 f2
      sched2 out2)
    (hres : res = ⟨blob, url, generateStickerFilename f1.name iso1⟩) :
    r1.transcoderCalls = 1 ∧
    r2.transcoderCalls = 0 ∧
    r1.transcoderCalls + r2.transcoderCalls = 1 ∧
    mapGet r1.cache (defaultGetCacheKey f2) =
      some ⟨blob, url, res.filename, now1⟩ ∧
    r2.state = { st1 with
                   isProcessing := false
                   progress := 100
                   error := none
                   result := some res } ∧
    r2.ret = CallRet.value (some res) ∧
    mapGet r2.cache (defaultGetCacheKey f2) =
      some ⟨blob, url, res.filename, now2⟩ := by
  have hkey : defaultGetCacheKey f2 = defaultGetCacheKey f1 := by
    simp [defaultGetCacheKey, hname, hsize, hlm]
  have h1 : r1 = _ := hr1.trans
    (run_miss_success ⟨true, true, now1, iso1⟩ c0 st0 f1 sched1 blob url rfl
      (by simpa using hmiss) hnc)
  have hcache1 : mapGet r1.cache (defaultGetCacheKey f2) =
      some ⟨blob, url, res.filename, now1⟩ := by
    rw [hkey, h1, hres]
    exact addToCache_mapGet_self now1 c0 (defaultGetCacheKey f1) _
  have h2 : r2 = _ := hr2.trans
    (run_hit ⟨true, true, now2, iso2⟩ r1.cache st1 f2 sched2 out2
      ⟨blob, url, res.filename, now1⟩ rfl rfl hcache1)
  refine ⟨by rw [h1], by rw [h2], by rw [h1, h2]; rfl, hcache1, ?_, ?_, ?_⟩
  · rw [h2, hres]
  · rw [h2, hres]
  · rw [h2]
    simp only []
    rw [hkey, mapGet_mapRefresh_self, hkey] at *
    rw [hcache1]
    rfl

/-- Witness for `cache_hit_skips_transcoder`: the same concrete file
converted twice; the transcoder runs once, the second call is a pure cache
hit. -/
theorem cache_hit_skips_transcoder_witness :
    mapGet ([] : Cache) (defaultGetCacheKey exampleFile) = none ∧
    (processVideoFile ⟨true, true, 1000, "A"⟩ [] idleState exampleFile []
        (Outcome.success 7 "blob:u")).transcoderCalls +
      (processVideoFile ⟨true, true, 2000, "B"⟩
        (processVideoFile ⟨true, true, 1000, "A"⟩ [] idleState exampleFile []
          (Outcome.success 7 "blob:u")).cache
        idleState exampleFile [] (Outcome.failure "never")).transcoderCalls =
      1 ∧
    (processVideoFile ⟨true, true, 2000, "B"⟩
        (processVideoFile ⟨true, true, 1000, "A"⟩ [] idleState exampleFile []
          (Outcome.success 7 "blob:u")).cache
        idleState exampleFile [] (Outcome.failure "never")).state =
      ⟨false, 100, none,
        some ⟨7, "blob:u", generateStickerFilename exampleFile.name "A"⟩⟩ :=
  ⟨rfl,
    (cache_hit_skips_transcoder 1000 2000 "A" "B" [] idleState idleState
      exampleFile exampleFile [] [] (Outcome.failure "never") 7 "blob:u"
      _ _ _ rfl (by decide) rfl rfl rfl rfl rfl rfl).2.2.1,
    by
      have h := (cache_hit_skips_transcoder 1000 2000 "A" "B" [] idleState
        idleState exampleFile exampleFile [] [] (Outcome.failure "never") 7
        "blob:u" _ _ _ rfl (by decide) rfl rfl rfl rfl rfl rfl).2.2.2.2.1
      simpa using h⟩

/-- Claim C4: inserting a new distinct result into a cache already holding
`MAX_CACHE_SIZE` entries evicts exactly one entry — the one with the oldest
recency timestamp (insertions and cache hits both stamp this timestamp) —
whose url is revoked exactly once, before the entry is removed and the new
entry inserted; the cache therefore never exceeds `MAX_CACHE_SIZE` entries. -/
theorem lru_eviction_bound (c : Cache) (k0 : String) (e0 : CacheEntry)
    (k : String) (r : ResultR) (now : Nat)
    (hlen : c.length = MAX_CACHE_SIZE)
    (hnd : (c.map Prod.fst).Nodup)
    (hmem : (k0, e0) ∈ c)
    (hmin : ∀ p ∈ c, p.1 ≠ k0 → e0.timestamp < p.2.timestamp)
    (hk0 : k0 ≠ "") (hu : e0.url ≠ "")
    (hnew : mapGet c k = none) :
    addToCache true now c k r =
      (mapSet (mapDelete c k0) k ⟨r.blob, r.url, r.filename, now⟩,
        [CacheEvent.revoke e0.url, CacheEvent.remove k0,
          CacheEvent.insert k]) ∧
    (addToCache true now c k r).1.length = MAX_CACHE_SIZE ∧
    mapGet (addToCache true now c k r).1 k0 = none ∧
    mapGet (addToCache true now c k r).1 k =
      some ⟨r.blob, r.url, r.filename, now⟩ := by
  have hold : oldestKey c = some k0 := oldestKey_min c k0 e0 hnd hmem hmin
  have hget0 : mapGet c k0 = some e0 := mapGet_eq_some_of_mem c k0 e0 hnd hmem
  have hkne : k ≠ k0 := by
    intro he
    rw [he, hget0] at hnew
    exact Option.noConfusion hnew
  have hcap : MAX_CACHE_SIZE ≤ c.length := le_of_eq hlen.symm
  have heq : addToCache true now c k r =
      (mapSet (mapDelete c k0) k ⟨r.blob, r.url, r.filename, now⟩,
        [CacheEvent.revoke e0.url, CacheEvent.remove k0,
          CacheEvent.insert k]) := by
    unfold addToCache
    simp only [Bool.true_eq_false, if_false, if_pos hcap, hold, hget0,
      if_neg hk0, if_neg hu]
    rfl
  refine ⟨heq, ?_, ?_, ?_⟩
  · rw [heq]
    have hdel : mapGet (mapDelete c k0) k = none :=
      mapGet_mapDelete_of_none c k k0 hnew
    rw [mapSet_length_of_none _ _ _ hdel]
    have := mapDelete_length c k0 (by simp [hget0])
    omega
  · rw [heq]
    rw [mapGet_mapSet_of_ne _ _ _ _ (fun he => hkne he.symm)]
    exact mapGet_mapDelete_self c k0 hnd
  · rw [heq]
    exact mapGet_mapSet_self _ _ _

/-- Witness for `lru_eviction_bound`: a full five-entry cache; inserting a
sixth distinct result evicts exactly the oldest entry, revoking its url once
before removal. -/
theorem lru_eviction_bound_witness :
    ([("k1", ⟨1, "u1", "f1", 1⟩), ("k2", ⟨2, "u2", "f2", 2⟩),
      ("k3", ⟨3, "u3", "f3", 3⟩), ("k4", ⟨4, "u4", "f4", 4⟩),
      ("k5", ⟨5, "u5", "f5", 5⟩)] : Cache).length = MAX_CACHE_SIZE ∧
    addToCache true 6
      [("k1", ⟨1, "u1", "f1", 1⟩), ("k2", ⟨2, "u2", "f2", 2⟩),
        ("k3", ⟨3, "u3", "f3", 3⟩), ("k4", ⟨4, "u4", "f4", 4⟩),
        ("k5", ⟨5, "u5", "f5", 5⟩)] "k6" ⟨6, "u6", "f6"⟩ =
      (mapSet
        (mapDelete
          [("k1", ⟨1, "u1", "f1", 1⟩), ("k2", ⟨2, "u2", "f2", 2⟩),
            ("k3", ⟨3, "u3", "f3", 3⟩), ("k4", ⟨4, "u4", "f4", 4⟩),
            ("k5", ⟨5, "u5", "f5", 5⟩)] "k1") "k6" ⟨6, "u6", "f6", 6⟩,
        [CacheEvent.revoke "u1", CacheEvent.remove "k1",
          CacheEvent.insert "k6"]) :=
  ⟨by decide,
    (lru_eviction_bound
      [("k1", ⟨1, "u1", "f1", 1⟩), ("k2", ⟨2, "u2", "f2", 2⟩),
        ("k3", ⟨3, "u3", "f3", 3⟩), ("k4", ⟨4, "u4", "f4", 4⟩),
        ("k5", ⟨5, "u5", "f5", 5⟩)] "k1" ⟨1, "u1", "f1", 1⟩ "k6" ⟨6, "u6", "f6"⟩
      6 (by decide) (by decide) (by decide) (by decide) (by decide)
      (by decide) (by decide)).1⟩

end Sticker

